import Mathlib

/-!
# Name shortener (`pkg/util/namer/namer.go`)

A shallow embedding of `GetName`, `GetPodName`, `LimitLength`, `min`, `max` and `hash`.

* A Go `string` is a sequence of bytes: `List UInt8`.  `len` counts bytes and
  a slice expression `s[lo:hi]` selects bytes.
* A Go `int` is a 64-bit signed integer.  It is modelled as an `Int`, and every
  subtraction of the source is wrapped into the 64-bit range by `wrapInt`.
* A slice expression whose bounds are out of range makes the Go program panic.
  `slice` returns `none` there, and the two functions return `Option`.
* `hash/fnv` and the `%08x` verb of `fmt` are library code; they are written out
  here as `fnv32a` and `fmt08x`.
* `hashM`, `GetNameM` and `LimitLengthM` are the same code with the heap of `hash/fnv`
  accumulators passed explicitly, to state that no call depends on what earlier calls
  left behind.
-/

namespace Namer

/-- A Go string: a sequence of bytes. -/
abbrev GoString := List UInt8

/-- The bytes of a string literal (its UTF-8 encoding, as in a Go source file). -/
def lit (s : String) : GoString := s.data.flatMap String.utf8EncodeChar

/-- The byte `-`. -/
def dash : UInt8 := 45

/-- Go's `len(s)`, an `int`. -/
def len (s : GoString) : Int := (s.length : Int)

/-- The value an `int` computation yields after 64-bit two's complement wrap-around. -/
def wrapInt (x : Int) : Int := (x + 2 ^ 63) % 2 ^ 64 - 2 ^ 63

/-- The slice expression `s[lo:hi]`: it panics (`none`) unless `0 ≤ lo ≤ hi ≤ len(s)`. -/
def slice (s : GoString) (lo hi : Int) : Option GoString :=
  if 0 ≤ lo ∧ lo ≤ hi ∧ hi ≤ len s then some ((s.take hi.toNat).drop lo.toNat) else none

/-- The source's `max`: the greater of its two inputs. -/
def max (a b : Int) : Int := if b > a then b else a

/-- The source's `min`: the lesser of its two inputs. -/
def min (a b : Int) : Int := if b < a then b else a

/-- The 32-bit FNV-1a hash (`fnv.New32a`, `Write`, `Sum32`): starting from the offset
basis, each byte is xor-ed into the state, which is then multiplied by the prime
modulo `2 ^ 32`. -/
def fnv32a (s : GoString) : Nat :=
  s.foldl (fun h c => ((h ^^^ c.toNat) * 16777619) % 2 ^ 32) 2166136261

/-- The lowercase hexadecimal digit of `d`, as a byte. -/
def hexDigit (d : Nat) : UInt8 :=
  if d < 10 then (48 + d).toUInt8 else (87 + d).toUInt8

/-- The hexadecimal digits of `n`, most significant first, put in front of `acc`;
`fuel` bounds the number of digits. -/
def hexDigits : Nat → Nat → GoString → GoString
  | 0, _, acc => acc
  | fuel + 1, n, acc =>
    if n / 16 = 0 then hexDigit (n % 16) :: acc
    else hexDigits fuel (n / 16) (hexDigit (n % 16) :: acc)

/-- The verb `%08x` of `fmt.Sprintf` on an unsigned integer: lowercase hexadecimal,
padded on the left with `0` to a width of at least 8. -/
def fmt08x (n : Nat) : GoString :=
  let ds := hexDigits (n + 1) n []
  List.replicate (8 - ds.length) 48 ++ ds

/-- The source's `hash`: the `%08x` rendering of the FNV-1a hash of `s`. -/
def hash (s : GoString) : GoString :=
  let intHash := fnv32a s
  fmt08x intHash

/-- The source's `GetName`. -/
def GetName (base suffix : GoString) (maxLength : Int) : Option GoString :=
  let name := base ++ dash :: suffix
  if len name > maxLength then
    let baseLength := wrapInt (wrapInt (maxLength - 10) - len suffix)
    if baseLength < 0 then
      (slice base 0 (min (len base) (wrapInt (maxLength - 9)))).map
        fun pre => pre ++ dash :: hash name
    else
      (slice base 0 baseLength).map
        fun pre => pre ++ dash :: (hash base ++ dash :: suffix)
  else some name

/-- The source's `LimitLength`. -/
def LimitLength (name : GoString) (maxLength : Int) : Option GoString :=
  if maxLength ≤ 0 then some []
  else if len name ≤ maxLength then some name
  else
    let suffix := hash name
    (slice name 0 (min (max 0 (wrapInt (maxLength - len suffix))) (len name))).bind
      fun pre => slice (pre ++ suffix) 0 maxLength

/-- Whether a byte is one of the characters `0`-`9`, `a`-`f`. -/
def isLowerHex (c : UInt8) : Bool :=
  (48 ≤ c.toNat && c.toNat ≤ 57) || (97 ≤ c.toNat && c.toNat ≤ 102)

/-- The value of a hexadecimal digit character (`0` for any other byte). -/
def hexVal (c : UInt8) : Nat :=
  if 48 ≤ c.toNat ∧ c.toNat ≤ 57 then c.toNat - 48
  else if 97 ≤ c.toNat ∧ c.toNat ≤ 102 then c.toNat - 87
  else 0

/-- The number a string of hexadecimal digits denotes, most significant digit first. -/
def hexValue (s : GoString) : Nat :=
  s.foldl (fun a c => 16 * a + hexVal c) 0

/-- Modelled from the spec: the constant `util.DNS1123SubdomainMaxLength` of the imported
package `k8s.io/kubernetes/pkg/util` is not part of the source files; it is the
253-character limit of a DNS-1123 subdomain that the spec mentions. -/
def DNS1123SubdomainMaxLength : Int := 253

/-- The source's `GetPodName`. -/
def GetPodName (base suffix : GoString) : Option GoString :=
  GetName base suffix DNS1123SubdomainMaxLength

/-- The FNV-1a recurrence as the spec words it, from the state `h`: for each byte in
order, the byte is xor-ed into the state and the state is then multiplied by 16777619
modulo `2 ^ 32`. -/
def fnv1aFrom (h : Nat) : GoString → Nat
  | [] => h
  | c :: cs => fnv1aFrom ((h ^^^ c.toNat) * 16777619 % 2 ^ 32) cs

/-- The 32-bit FNV-1a hash as the spec words it: the recurrence started from 2166136261
(`0x811c9dc5`). -/
def fnv1aSpec (s : GoString) : Nat := fnv1aFrom 2166136261 s

/-- The rendering of `n` in exactly `w` lowercase hexadecimal digits, most significant
first: the last digit is that of `n % 16`, the `w - 1` digits before it render `n / 16`
(so a small `n` is padded on the left with zeros). -/
def hexFixed : Nat → Nat → GoString
  | 0, _ => []
  | w + 1, n => hexFixed w (n / 16) ++ [hexDigit (n % 16)]

/-- The objects the program has allocated so far: the value of each `sum32a`
accumulator of `hash/fnv`, at its address.  This is the only mutable state the package
touches; it declares no package-level variable. -/
abbrev Heap := List Nat

/-- The call `fnv.New32a()`: it allocates a new accumulator holding the offset basis and
returns its address together with the extended heap. -/
def New32a (σ : Heap) : Nat × Heap := (σ.length, σ ++ [2166136261])

/-- The method `Write` of the accumulator at address `p`: starting from the value stored
there, each byte is xor-ed in and the value multiplied by the prime modulo `2 ^ 32`; the
result is stored back. -/
def Write (σ : Heap) (p : Nat) (data : GoString) : Heap :=
  σ.set p (data.foldl (fun h c => ((h ^^^ c.toNat) * 16777619) % 2 ^ 32) (σ.getD p 0))

/-- The method `Sum32` of the accumulator at address `p`: the value stored there. -/
def Sum32 (σ : Heap) (p : Nat) : Nat := σ.getD p 0

/-- The source's `hash`, run in the heap `σ`: the returned digest and the heap the call
leaves behind. -/
def hashM (s : GoString) (σ : Heap) : GoString × Heap :=
  let a := New32a σ
  let σ1 := Write a.2 a.1 s
  let intHash := Sum32 σ1 a.1
  (fmt08x intHash, σ1)

/-- The source's `GetName`, run in the heap `σ`.  A faulting slice ends the call before
`hash` is reached. -/
def GetNameM (base suffix : GoString) (maxLength : Int) (σ : Heap) :
    Option GoString × Heap :=
  let name := base ++ dash :: suffix
  if len name > maxLength then
    let baseLength := wrapInt (wrapInt (maxLength - 10) - len suffix)
    if baseLength < 0 then
      match slice base 0 (min (len base) (wrapInt (maxLength - 9))) with
      | none => (none, σ)
      | some pre => (some (pre ++ dash :: (hashM name σ).1), (hashM name σ).2)
    else
      match slice base 0 baseLength with
      | none => (none, σ)
      | some pre => (some (pre ++ dash :: ((hashM base σ).1 ++ dash :: suffix)), (hashM base σ).2)
  else (some name, σ)

/-- The source's `LimitLength`, run in the heap `σ`. -/
def LimitLengthM (name : GoString) (maxLength : Int) (σ : Heap) : Option GoString × Heap :=
  if maxLength ≤ 0 then (some [], σ)
  else if len name ≤ maxLength then (some name, σ)
  else
    let r := hashM name σ
    let suffix := r.1
    ((slice name 0 (min (max 0 (wrapInt (maxLength - len suffix))) (len name))).bind
      fun pre => slice (pre ++ suffix) 0 maxLength, r.2)

/-! ## Integers and slices -/

theorem wrapInt_eq (x : Int) (h1 : -2 ^ 63 ≤ x) (h2 : x < 2 ^ 63) : wrapInt x = x := by
  unfold wrapInt
  rw [Int.emod_eq_of_lt (by omega) (by omega)]
  omega

theorem len_nonneg (s : GoString) : 0 ≤ len s := by
  unfold len
  omega

theorem len_append (s t : GoString) : len (s ++ t) = len s + len t := by
  simp [len]

theorem len_cons (c : UInt8) (s : GoString) : len (c :: s) = 1 + len s := by
  simp [len]
  omega

theorem slice_zero (s : GoString) (hi : Int) (h0 : 0 ≤ hi) (h1 : hi ≤ len s) :
    slice s 0 hi = some (s.take hi.toNat) := by
  simp [slice, h0, h1]

theorem slice_neg (s : GoString) (hi : Int) (h0 : hi < 0) : slice s 0 hi = none := by
  have : ¬ (0 ≤ hi) := by omega
  simp [slice, this]

theorem length_take_toNat (s : GoString) (k : Int) (h0 : 0 ≤ k) (h1 : k ≤ len s) :
    len (s.take k.toNat) = k := by
  unfold len at *
  rw [List.length_take]
  omega

/-! ## The digest -/

theorem fnv32a_step_lt (s : GoString) (h0 : Nat) (h : h0 < 2 ^ 32) :
    s.foldl (fun h c => ((h ^^^ c.toNat) * 16777619) % 2 ^ 32) h0 < 2 ^ 32 := by
  induction s generalizing h0 with
  | nil => simpa using h
  | cons c cs ih =>
    rw [List.foldl_cons]
    exact ih _ (Nat.mod_lt _ (by norm_num))

theorem fnv32a_lt (s : GoString) : fnv32a s < 2 ^ 32 :=
  fnv32a_step_lt s _ (by norm_num)

theorem hexDigits_length_le (fuel : Nat) :
    ∀ (k n : Nat) (acc : GoString), 1 ≤ k → k ≤ fuel → n < 16 ^ k →
      (hexDigits fuel n acc).length ≤ k + acc.length := by
  induction fuel with
  | zero => intro k n acc h1 h2; omega
  | succ fuel ih =>
    intro k n acc h1 h2 h3
    unfold hexDigits
    by_cases hn : n / 16 = 0
    · simp only [hn, if_true, List.length_cons]
      omega
    · simp only [hn, if_false]
      have hk : 2 ≤ k := by
        by_contra hk
        have hk1 : k = 1 := by omega
        subst hk1
        exact hn (Nat.div_eq_of_lt (by simpa using h3))
      have hdiv : n / 16 < 16 ^ (k - 1) := by
        rw [Nat.div_lt_iff_lt_mul (by norm_num)]
        have : 16 ^ (k - 1) * 16 = 16 ^ k := by
          rw [← pow_succ]
          congr 1
          omega
        omega
      have := ih (k - 1) (n / 16) (hexDigit (n % 16) :: acc) (by omega) (by omega) hdiv
      simp only [List.length_cons] at this
      omega

theorem lt_sixteen_pow_succ (n : Nat) : n < 16 ^ (n + 1) :=
  lt_of_lt_of_le (Nat.lt_pow_self (by norm_num) n)
    (Nat.pow_le_pow_right (by norm_num) (Nat.le_succ n))

theorem fmt08x_length (n : Nat) (h : n < 2 ^ 32) : (fmt08x n).length = 8 := by
  have h16 : n < 16 ^ 8 := by
    have : (16 : Nat) ^ 8 = 2 ^ 32 := by norm_num
    omega
  have hle : (hexDigits (n + 1) n []).length ≤ 8 := by
    by_cases hn : 8 ≤ n + 1
    · simpa using hexDigits_length_le (n + 1) 8 n [] (by norm_num) hn h16
    · have := hexDigits_length_le (n + 1) (n + 1) n [] (by omega) le_rfl (lt_sixteen_pow_succ n)
      simp only [List.length_nil] at this
      omega
  simp only [fmt08x, List.length_append, List.length_replicate]
  omega

theorem hash_length (s : GoString) : (hash s).length = 8 :=
  fmt08x_length _ (fnv32a_lt s)

theorem len_hash (s : GoString) : len (hash s) = 8 := by
  simp [len, hash_length]

/-! ## The three paths of `GetName` -/

theorem getName_of_fits (base suffix : GoString) (maxLength : Int)
    (hfit : len base + 1 + len suffix ≤ maxLength) :
    GetName base suffix maxLength = some (base ++ dash :: suffix) := by
  have hname : ¬ (len (base ++ dash :: suffix) > maxLength) := by
    rw [len_append, len_cons]
    omega
  simp only [GetName, hname, if_false]

theorem getName_of_long_suffix (base suffix : GoString) (maxLength : Int)
    (hlen : len base + 1 + len suffix < 2 ^ 63) (h9 : 9 ≤ maxLength)
    (hlong : maxLength < len base + 1 + len suffix)
    (hneg : maxLength - 10 - len suffix < 0) :
    GetName base suffix maxLength =
      some (base.take (min (len base) (maxLength - 9)).toNat
        ++ dash :: hash (base ++ dash :: suffix)) := by
  have hb := len_nonneg base
  have hs := len_nonneg suffix
  have hname : len (base ++ dash :: suffix) > maxLength := by
    rw [len_append, len_cons]
    omega
  have w1 : wrapInt (maxLength - 10) = maxLength - 10 := wrapInt_eq _ (by omega) (by omega)
  have w2 : wrapInt (maxLength - 10 - len suffix) = maxLength - 10 - len suffix :=
    wrapInt_eq _ (by omega) (by omega)
  have w3 : wrapInt (maxLength - 9) = maxLength - 9 := wrapInt_eq _ (by omega) (by omega)
  have hmin0 : 0 ≤ min (len base) (maxLength - 9) := by
    unfold min
    split <;> omega
  have hmin1 : min (len base) (maxLength - 9) ≤ len base := by
    unfold min
    split <;> omega
  simp only [GetName, hname, if_true, w1, w2, w3, hneg, slice_zero _ _ hmin0 hmin1,
    Option.map_some']

theorem getName_of_short_suffix (base suffix : GoString) (maxLength : Int)
    (hlen : len base + 1 + len suffix < 2 ^ 63)
    (hlong : maxLength < len base + 1 + len suffix)
    (hpos : 0 ≤ maxLength - 10 - len suffix) :
    GetName base suffix maxLength =
      some (base.take (maxLength - 10 - len suffix).toNat
        ++ dash :: (hash base ++ dash :: suffix)) := by
  have hb := len_nonneg base
  have hs := len_nonneg suffix
  have hname : len (base ++ dash :: suffix) > maxLength := by
    rw [len_append, len_cons]
    omega
  have w1 : wrapInt (maxLength - 10) = maxLength - 10 := wrapInt_eq _ (by omega) (by omega)
  have w2 : wrapInt (maxLength - 10 - len suffix) = maxLength - 10 - len suffix :=
    wrapInt_eq _ (by omega) (by omega)
  have hnn : ¬ (maxLength - 10 - len suffix < 0) := by omega
  simp only [GetName, hname, if_true, w1, w2, hnn, if_false,
    slice_zero _ _ hpos (by omega : maxLength - 10 - len suffix ≤ len base), Option.map_some']

theorem getName_bounded (base suffix : GoString) (maxLength : Int)
    (hlen : len base + 1 + len suffix < 2 ^ 63) (h9 : 9 ≤ maxLength) :
    ∃ r, GetName base suffix maxLength = some r ∧ len r ≤ maxLength := by
  have hb := len_nonneg base
  have hs := len_nonneg suffix
  by_cases hfit : len base + 1 + len suffix ≤ maxLength
  · refine ⟨_, getName_of_fits base suffix maxLength hfit, ?_⟩
    rw [len_append, len_cons]
    omega
  · by_cases hneg : maxLength - 10 - len suffix < 0
    · refine ⟨_, getName_of_long_suffix base suffix maxLength hlen h9 (by omega) hneg, ?_⟩
      have hmin0 : 0 ≤ min (len base) (maxLength - 9) := by
        unfold min
        split <;> omega
      have hmin1 : min (len base) (maxLength - 9) ≤ len base := by
        unfold min
        split <;> omega
      have hmin2 : min (len base) (maxLength - 9) ≤ maxLength - 9 := by
        unfold min
        split <;> omega
      rw [len_append, len_cons, len_hash, length_take_toNat _ _ hmin0 hmin1]
      omega
    · refine ⟨_, getName_of_short_suffix base suffix maxLength hlen (by omega) (by omega), ?_⟩
      rw [len_append, len_cons, len_append, len_cons, len_hash,
        length_take_toNat _ _ (by omega) (by omega)]
      omega

/-! ## The paths of `LimitLength` -/

theorem limitLength_of_nonpos (name : GoString) (maxLength : Int) (h : maxLength ≤ 0) :
    LimitLength name maxLength = some [] := by
  simp only [LimitLength, h, if_true]

theorem limitLength_of_fits (name : GoString) (maxLength : Int) (h1 : 1 ≤ maxLength)
    (hfit : len name ≤ maxLength) : LimitLength name maxLength = some name := by
  have h0 : ¬ (maxLength ≤ 0) := by omega
  simp only [LimitLength, h0, if_false, hfit, if_true]

theorem limitLength_of_long (name : GoString) (maxLength : Int)
    (hlen : len name < 2 ^ 63) (h1 : 1 ≤ maxLength) (hlong : maxLength < len name) :
    LimitLength name maxLength =
      some (((name.take (min (max 0 (maxLength - 8)) (len name)).toNat) ++ hash name).take
        maxLength.toNat) := by
  have h0 : ¬ (maxLength ≤ 0) := by omega
  have hfit : ¬ (len name ≤ maxLength) := by omega
  have w : wrapInt (maxLength - 8) = maxLength - 8 := wrapInt_eq _ (by omega) (by omega)
  have hc0 : 0 ≤ min (max 0 (maxLength - 8)) (len name) := by
    unfold min max
    split <;> split <;> omega
  have hc1 : min (max 0 (maxLength - 8)) (len name) ≤ len name := by
    unfold min max
    split <;> split <;> omega
  have hc2 : maxLength ≤ min (max 0 (maxLength - 8)) (len name) + 8 := by
    unfold min max
    split <;> split <;> omega
  have hs : maxLength ≤
      len (name.take (min (max 0 (maxLength - 8)) (len name)).toNat ++ hash name) := by
    rw [len_append, len_hash, length_take_toNat _ _ hc0 hc1]
    exact hc2
  simp only [LimitLength, h0, if_false, hfit, len_hash, w, slice_zero _ _ hc0 hc1,
    Option.some_bind, slice_zero _ _ (by omega : (0 : Int) ≤ maxLength) hs]

/-! ## The digest is eight hexadecimal digits -/

theorem hexDigit_isLowerHex (d : Nat) (h : d < 16) : isLowerHex (hexDigit d) = true := by
  interval_cases d <;> decide

theorem hexVal_hexDigit (d : Nat) (h : d < 16) : hexVal (hexDigit d) = d := by
  interval_cases d <;> decide

theorem hexDigits_isLowerHex (fuel : Nat) :
    ∀ (n : Nat) (acc : GoString), (∀ c ∈ acc, isLowerHex c = true) →
      ∀ c ∈ hexDigits fuel n acc, isLowerHex c = true := by
  induction fuel with
  | zero => intro n acc hacc c hc; exact hacc c hc
  | succ fuel ih =>
    intro n acc hacc c hc
    have hcons : ∀ x ∈ hexDigit (n % 16) :: acc, isLowerHex x = true := by
      intro x hx
      rcases List.mem_cons.mp hx with hx | hx
      · rw [hx]
        exact hexDigit_isLowerHex _ (Nat.mod_lt _ (by norm_num))
      · exact hacc x hx
    unfold hexDigits at hc
    by_cases hn : n / 16 = 0
    · simp only [hn, if_true] at hc
      exact hcons c hc
    · simp only [hn, if_false] at hc
      exact ih _ _ hcons c hc

theorem hexValue_foldl (s : GoString) (a : Nat) :
    s.foldl (fun a c => 16 * a + hexVal c) a = a * 16 ^ s.length + hexValue s := by
  induction s generalizing a with
  | nil => simp [hexValue]
  | cons c cs ih =>
    unfold hexValue
    rw [List.foldl_cons, List.foldl_cons, ih, ih (16 * 0 + hexVal c), List.length_cons]
    ring

theorem hexValue_cons (c : UInt8) (s : GoString) :
    hexValue (c :: s) = hexVal c * 16 ^ s.length + hexValue s := by
  have := hexValue_foldl s (16 * 0 + hexVal c)
  unfold hexValue
  rw [List.foldl_cons, this]
  simp [hexValue]

theorem hexValue_replicate_zero (k : Nat) (s : GoString) :
    hexValue (List.replicate k 48 ++ s) = hexValue s := by
  induction k with
  | zero => simp
  | succ k ih =>
    rw [List.replicate_succ, List.cons_append, hexValue_cons, ih]
    have : hexVal 48 = 0 := by decide
    rw [this]
    omega

theorem hexDigits_value (fuel : Nat) :
    ∀ (n : Nat) (acc : GoString), n < 16 ^ fuel →
      hexValue (hexDigits fuel n acc) = n * 16 ^ acc.length + hexValue acc := by
  induction fuel with
  | zero =>
    intro n acc h
    have : n = 0 := by simpa using h
    simp [hexDigits, this]
  | succ fuel ih =>
    intro n acc h
    unfold hexDigits
    by_cases hn : n / 16 = 0
    · simp only [hn, if_true]
      have hlt : n < 16 := (Nat.div_eq_zero_iff (by norm_num)).mp hn
      rw [hexValue_cons, hexVal_hexDigit _ (Nat.mod_lt _ (by norm_num)), Nat.mod_eq_of_lt hlt]
    · simp only [hn, if_false]
      have hdiv : n / 16 < 16 ^ fuel := by
        rw [Nat.div_lt_iff_lt_mul (by norm_num)]
        rw [pow_succ] at h
        exact h
      rw [ih _ _ hdiv, hexValue_cons, hexVal_hexDigit _ (Nat.mod_lt _ (by norm_num)),
        List.length_cons, pow_succ]
      have hsplit := Nat.div_add_mod n 16
      calc n / 16 * (16 ^ acc.length * 16) + (n % 16 * 16 ^ acc.length + hexValue acc)
          = (16 * (n / 16) + n % 16) * 16 ^ acc.length + hexValue acc := by ring
        _ = n * 16 ^ acc.length + hexValue acc := by rw [hsplit]

theorem fmt08x_value (n : Nat) : hexValue (fmt08x n) = n := by
  unfold fmt08x
  simp only []
  rw [hexValue_replicate_zero, hexDigits_value _ _ _ (lt_sixteen_pow_succ n)]
  simp [hexValue]

theorem fmt08x_isLowerHex (n : Nat) : ∀ c ∈ fmt08x n, isLowerHex c = true := by
  intro c hc
  unfold fmt08x at hc
  rcases List.mem_append.mp hc with h | h
  · rw [(List.mem_replicate.mp h).2]
    decide
  · exact hexDigits_isLowerHex _ _ _ (by simp) c h

/-! ## The digest against the spec's wording -/

theorem fnv1aFrom_eq_foldl (s : GoString) (h : Nat) :
    fnv1aFrom h s = s.foldl (fun h c => ((h ^^^ c.toNat) * 16777619) % 2 ^ 32) h := by
  induction s generalizing h with
  | nil => rfl
  | cons c cs ih =>
    rw [List.foldl_cons, ← ih]
    rfl

theorem fnv1aSpec_eq (s : GoString) : fnv1aSpec s = fnv32a s :=
  fnv1aFrom_eq_foldl s _

theorem hexFixed_zero (w : Nat) : hexFixed w 0 = List.replicate w 48 := by
  induction w with
  | zero => rfl
  | succ w ih =>
    have h0 : hexDigit (0 % 16) = 48 := by decide
    rw [hexFixed, Nat.zero_div, ih, h0, List.replicate_succ']

theorem hexDigits_pad (fuel : Nat) :
    ∀ (k n : Nat) (acc : GoString), 1 ≤ k → k ≤ fuel → n < 16 ^ k →
      List.replicate (k + acc.length - (hexDigits fuel n acc).length) 48 ++ hexDigits fuel n acc
        = hexFixed k n ++ acc := by
  induction fuel with
  | zero => intro k n acc h1 h2; omega
  | succ fuel ih =>
    intro k n acc h1 h2 h3
    obtain ⟨j, rfl⟩ : ∃ j, k = j + 1 := ⟨k - 1, by omega⟩
    unfold hexDigits
    by_cases hn : n / 16 = 0
    · simp only [hn, if_true, List.length_cons]
      rw [hexFixed, hn, hexFixed_zero]
      have : j + 1 + acc.length - (acc.length + 1) = j := by omega
      rw [this]
      simp
    · simp only [hn, if_false]
      have hj : 1 ≤ j := by
        by_contra hj
        have hj0 : j = 0 := by omega
        subst hj0
        exact hn (Nat.div_eq_of_lt (by simpa using h3))
      have hdiv : n / 16 < 16 ^ j := by
        rw [Nat.div_lt_iff_lt_mul (by norm_num)]
        rw [pow_succ] at h3
        exact h3
      have := ih j (n / 16) (hexDigit (n % 16) :: acc) hj (by omega) hdiv
      rw [List.length_cons] at this
      have harith : j + 1 + acc.length = j + (acc.length + 1) := by omega
      rw [harith, this, hexFixed]
      simp

theorem fmt08x_eq_hexFixed (n : Nat) (h : n < 16 ^ 8) : fmt08x n = hexFixed 8 n := by
  by_cases hn : 8 ≤ n + 1
  · have := hexDigits_pad (n + 1) 8 n [] (by norm_num) hn h
    simpa [fmt08x] using this
  · have hlt : n < 7 := by omega
    interval_cases n <;> decide

/-! ## Faults of `GetName`, and further paths -/

theorem slice_above (s : GoString) (hi : Int) (h : len s < hi) : slice s 0 hi = none := by
  have : ¬ (hi ≤ len s) := by omega
  simp [slice, this]

theorem getName_faults (base suffix : GoString) (maxLength : Int)
    (hmin : -2 ^ 63 ≤ maxLength) (hlen : len base + len suffix + 10 < 2 ^ 63)
    (hlong : maxLength < len base + 1 + len suffix) (h9 : maxLength < 9) :
    GetName base suffix maxLength = none := by
  have hb := len_nonneg base
  have hs := len_nonneg suffix
  have hname : len (base ++ dash :: suffix) > maxLength := by
    rw [len_append, len_cons]
    omega
  simp only [GetName, hname, if_true]
  by_cases hw : -2 ^ 63 ≤ maxLength - 10 - len suffix
  · have w1 : wrapInt (maxLength - 10) = maxLength - 10 := wrapInt_eq _ (by omega) (by omega)
    have w2 : wrapInt (maxLength - 10 - len suffix) = maxLength - 10 - len suffix :=
      wrapInt_eq _ hw (by omega)
    have w3 : wrapInt (maxLength - 9) = maxLength - 9 := wrapInt_eq _ (by omega) (by omega)
    have hneg : maxLength - 10 - len suffix < 0 := by omega
    have hm : min (len base) (maxLength - 9) < 0 := by
      unfold min
      split <;> omega
    simp only [w1, w2, w3, hneg, if_true, slice_neg _ _ hm, Option.map_none']
  · have hbig : len base < wrapInt (wrapInt (maxLength - 10) - len suffix) := by
      unfold wrapInt
      omega
    have hnn : ¬ (wrapInt (wrapInt (maxLength - 10) - len suffix) < 0) := by omega
    simp only [hnn, if_false, slice_above _ _ hbig, Option.map_none']

theorem limitLength_bounded (name : GoString) (maxLength : Int)
    (hlen : len name < 2 ^ 63) (h1 : 1 ≤ maxLength) :
    ∃ r, LimitLength name maxLength = some r ∧ len r ≤ maxLength := by
  by_cases hfit : len name ≤ maxLength
  · exact ⟨name, limitLength_of_fits name maxLength h1 hfit, hfit⟩
  · refine ⟨_, limitLength_of_long name maxLength hlen h1 (by omega), ?_⟩
    unfold len
    rw [List.length_take]
    omega

theorem limitLength_of_tiny (name : GoString) (maxLength : Int)
    (h1 : 1 ≤ maxLength) (h8 : maxLength < 8) (hlong : maxLength < len name) :
    LimitLength name maxLength = some ((hash name).take maxLength.toNat) := by
  have h0 : ¬ (maxLength ≤ 0) := by omega
  have hfit : ¬ (len name ≤ maxLength) := by omega
  have w : wrapInt (maxLength - 8) = maxLength - 8 := wrapInt_eq _ (by omega) (by omega)
  have hclamp : min (max 0 (maxLength - 8)) (len name) = 0 := by
    unfold min max
    split <;> split <;> omega
  have hh : maxLength ≤ len (hash name) := by
    rw [len_hash]
    omega
  simp only [LimitLength, h0, if_false, hfit, len_hash, w, hclamp,
    slice_zero name 0 le_rfl (len_nonneg name), Int.toNat_zero, List.take_zero,
    Option.some_bind, List.nil_append, slice_zero _ _ (by omega : (0 : Int) ≤ maxLength) hh]

/-! ## Running in a heap -/

theorem sum32_write_new (σ : Heap) (s : GoString) :
    Sum32 (Write (New32a σ).2 (New32a σ).1 s) (New32a σ).1 = fnv32a s := by
  simp [Sum32, Write, New32a, fnv32a, List.getD_eq_getElem?_getD]

theorem hashM_fst (s : GoString) (σ : Heap) : (hashM s σ).1 = hash s := by
  simp only [hashM, hash, sum32_write_new]

theorem getNameM_fst (base suffix : GoString) (maxLength : Int) (σ : Heap) :
    (GetNameM base suffix maxLength σ).1 = GetName base suffix maxLength := by
  unfold GetNameM GetName
  simp only [hashM_fst]
  split
  · split
    · cases slice base 0 (min (len base) (wrapInt (maxLength - 9))) <;> rfl
    · cases slice base 0 (wrapInt (wrapInt (maxLength - 10) - len suffix)) <;> rfl
  · rfl

theorem limitLengthM_fst (name : GoString) (maxLength : Int) (σ : Heap) :
    (LimitLengthM name maxLength σ).1 = LimitLength name maxLength := by
  unfold LimitLengthM LimitLength
  simp only [hashM_fst]
  split
  · rfl
  · split <;> rfl

theorem hashM_leaves_accumulator :
    hashM (lit "foo") [7, 9] = (lit "a9f37ed7", [7, 9, 2851307223]) ∧
      (hashM (lit "foo") (hashM (lit "foo") [7, 9]).2).1 = lit "a9f37ed7" := by
  decide

theorem lit_dash : lit "-" = [dash] := by decide

/-! ## The claims -/

/-- C1: for every base, every suffix and every `maxLength ≥ 11`, `GetName` returns a
string of at most `maxLength` bytes.  (The joined name `base-suffix` is a Go string, so
its length is below `2 ^ 63`.) -/
theorem GetName_length_le_maxLength (base suffix : GoString) (maxLength : Int)
    (hlen : len base + 1 + len suffix < 2 ^ 63) (h11 : 11 ≤ maxLength) :
    ∃ r, GetName base suffix maxLength = some r ∧ len r ≤ maxLength :=
  getName_bounded base suffix maxLength hlen (by omega)

theorem GetName_length_le_maxLength_witness :
    len (lit "a-very-long-deployment-name-that-exceeds") + 1 + len (lit "deploy") < 2 ^ 63 ∧
    (11 : Int) ≤ 30 ∧
    ∃ r, GetName (lit "a-very-long-deployment-name-that-exceeds") (lit "deploy") 30 = some r ∧
      len r ≤ 30 :=
  ⟨by decide, by decide,
    GetName_length_le_maxLength (lit "a-very-long-deployment-name-that-exceeds") (lit "deploy") 30
      (by decide) (by decide)⟩

/-- C2: when `len(base) + len(suffix) + 1 ≤ maxLength`, `GetName` returns
`base ++ "-" ++ suffix` exactly, with no truncation and no digest. -/
theorem GetName_no_truncation (base suffix : GoString) (maxLength : Int)
    (hfit : len base + len suffix + 1 ≤ maxLength) :
    GetName base suffix maxLength = some (base ++ lit "-" ++ suffix) := by
  rw [getName_of_fits base suffix maxLength (by omega)]
  simp [lit_dash]

theorem GetName_no_truncation_witness :
    len (lit "deployment-5") + len (lit "deploy") + 1 ≤ 20 ∧
    GetName (lit "deployment-5") (lit "deploy") 20 = some (lit "deployment-5-deploy") :=
  ⟨by decide,
    (GetName_no_truncation (lit "deployment-5") (lit "deploy") 20 (by decide)).trans (by decide)⟩

/-- C3: for every name and every `maxLength ≥ 1`, `LimitLength` returns a string of at
most `maxLength` bytes.  (The name is a Go string, so its length is below `2 ^ 63`.) -/
theorem LimitLength_length_le_maxLength (name : GoString) (maxLength : Int)
    (hlen : len name < 2 ^ 63) (h1 : 1 ≤ maxLength) :
    ∃ r, LimitLength name maxLength = some r ∧ len r ≤ maxLength := by
  by_cases hfit : len name ≤ maxLength
  · exact ⟨name, limitLength_of_fits name maxLength h1 hfit, hfit⟩
  · refine ⟨_, limitLength_of_long name maxLength hlen h1 (by omega), ?_⟩
    unfold len
    rw [List.length_take]
    omega

theorem LimitLength_length_le_maxLength_witness :
    len (lit "this-name-is-too-long-for-the-limit") < 2 ^ 63 ∧ (1 : Int) ≤ 10 ∧
    ∃ r, LimitLength (lit "this-name-is-too-long-for-the-limit") 10 = some r ∧ len r ≤ 10 :=
  ⟨by decide, by decide,
    LimitLength_length_le_maxLength (lit "this-name-is-too-long-for-the-limit") 10
      (by decide) (by decide)⟩

/-- C4: when the joined name is longer than `maxLength` and
`baseBudget = maxLength - 10 - len(suffix)` is not negative, `GetName` returns the first
`baseBudget` bytes of `base`, then `-`, the digest of the whole untruncated `base`, `-`
and the suffix. -/
theorem GetName_truncates_base (base suffix : GoString) (maxLength : Int)
    (hlen : len base + 1 + len suffix < 2 ^ 63)
    (hlong : len base + 1 + len suffix > maxLength)
    (hbudget : maxLength - 10 - len suffix ≥ 0) :
    GetName base suffix maxLength =
      some (base.take (maxLength - 10 - len suffix).toNat
        ++ lit "-" ++ hash base ++ lit "-" ++ suffix) := by
  rw [getName_of_short_suffix base suffix maxLength hlen (by omega) (by omega)]
  simp [lit_dash]

theorem GetName_truncates_base_witness :
    len (lit "a-very-long-deployment-name-that-exceeds") + 1 + len (lit "deploy") < 2 ^ 63 ∧
    len (lit "a-very-long-deployment-name-that-exceeds") + 1 + len (lit "deploy") > 30 ∧
    (30 : Int) - 10 - len (lit "deploy") ≥ 0 ∧
    GetName (lit "a-very-long-deployment-name-that-exceeds") (lit "deploy") 30 =
      some (lit "a-very-long-de-" ++ hash (lit "a-very-long-deployment-name-that-exceeds")
        ++ lit "-deploy") :=
  ⟨by decide, by decide, by decide,
    (GetName_truncates_base (lit "a-very-long-deployment-name-that-exceeds") (lit "deploy") 30
      (by decide) (by decide) (by decide)).trans (by decide)⟩

/-- C5: when `maxLength ≥ 9`, the joined name is longer than `maxLength` and
`maxLength - 10 - len(suffix)` is negative, `GetName` drops the suffix: it returns the
first `min(len(base), maxLength - 9)` bytes of `base`, then `-` and the digest of the
joined, untruncated `base-suffix` string. -/
theorem GetName_drops_long_suffix (base suffix : GoString) (maxLength : Int)
    (hlen : len base + 1 + len suffix < 2 ^ 63) (h9 : 9 ≤ maxLength)
    (hlong : len base + 1 + len suffix > maxLength)
    (hbudget : maxLength - 10 - len suffix < 0) :
    GetName base suffix maxLength =
      some (base.take (min (len base) (maxLength - 9)).toNat
        ++ lit "-" ++ hash (base ++ lit "-" ++ suffix)) := by
  rw [getName_of_long_suffix base suffix maxLength hlen h9 (by omega) hbudget]
  simp [lit_dash]

theorem GetName_drops_long_suffix_witness :
    len (lit "short") + 1 + len (lit "an-extremely-long-suffix-value") < 2 ^ 63 ∧
    (9 : Int) ≤ 20 ∧
    len (lit "short") + 1 + len (lit "an-extremely-long-suffix-value") > 20 ∧
    (20 : Int) - 10 - len (lit "an-extremely-long-suffix-value") < 0 ∧
    GetName (lit "short") (lit "an-extremely-long-suffix-value") 20 =
      some (lit "short-" ++ hash (lit "short-an-extremely-long-suffix-value")) :=
  ⟨by decide, by decide, by decide, by decide,
    (GetName_drops_long_suffix (lit "short") (lit "an-extremely-long-suffix-value") 20
      (by decide) (by decide) (by decide) (by decide)).trans (by decide)⟩

/-- C6: when `1 ≤ maxLength < len(name)`, `LimitLength` returns the first `maxLength`
bytes of (the first `clamp(maxLength - 8, 0, len(name))` bytes of `name`) followed by the
digest of the whole `name`; for `maxLength ≥ 8` that is `name[0:maxLength-8]` followed by
the complete digest. -/
theorem LimitLength_truncates (name : GoString) (maxLength : Int)
    (hlen : len name < 2 ^ 63) (h1 : 1 ≤ maxLength) (hlong : maxLength < len name) :
    LimitLength name maxLength =
        some (((name.take (min (max 0 (maxLength - 8)) (len name)).toNat) ++ hash name).take
          maxLength.toNat) ∧
      (8 ≤ maxLength →
        LimitLength name maxLength = some (name.take (maxLength - 8).toNat ++ hash name)) := by
  refine ⟨limitLength_of_long name maxLength hlen h1 hlong, fun h8 => ?_⟩
  rw [limitLength_of_long name maxLength hlen h1 hlong]
  have hclamp : min (max 0 (maxLength - 8)) (len name) = maxLength - 8 := by
    unfold min max
    split <;> split <;> omega
  rw [hclamp]
  have hlen8 : len (name.take (maxLength - 8).toNat ++ hash name) = maxLength := by
    rw [len_append, len_hash, length_take_toNat _ _ (by omega) (by omega)]
    omega
  rw [List.take_of_length_le]
  unfold len at hlen8
  omega

theorem LimitLength_truncates_witness :
    len (lit "this-name-is-too-long-for-the-limit") < 2 ^ 63 ∧ (1 : Int) ≤ 10 ∧
    (10 : Int) < len (lit "this-name-is-too-long-for-the-limit") ∧
    LimitLength (lit "this-name-is-too-long-for-the-limit") 10 =
      some (lit "th" ++ hash (lit "this-name-is-too-long-for-the-limit")) :=
  ⟨by decide, by decide, by decide,
    ((LimitLength_truncates (lit "this-name-is-too-long-for-the-limit") 10
      (by decide) (by decide) (by decide)).2 (by decide)).trans (by decide)⟩

/-- C7: when `maxLength ≥ 1` and `len(name) ≤ maxLength`, `LimitLength` returns `name`
unchanged. -/
theorem LimitLength_unchanged (name : GoString) (maxLength : Int)
    (h1 : maxLength ≥ 1) (hfit : len name ≤ maxLength) :
    LimitLength name maxLength = some name :=
  limitLength_of_fits name maxLength h1 hfit

theorem LimitLength_unchanged_witness :
    (11 : Int) ≥ 1 ∧ len (lit "exactly-ten") ≤ 11 ∧
    LimitLength (lit "exactly-ten") 11 = some (lit "exactly-ten") :=
  ⟨by decide, by decide, LimitLength_unchanged (lit "exactly-ten") 11 (by decide) (by decide)⟩

/-- C8: for every name and every `maxLength ≤ 0`, `LimitLength` returns the empty string
and does not fault. -/
theorem LimitLength_nonpositive (name : GoString) (maxLength : Int) (h : maxLength ≤ 0) :
    LimitLength name maxLength = some (lit "") :=
  limitLength_of_nonpos name maxLength h

theorem LimitLength_nonpositive_witness :
    (-3 : Int) ≤ 0 ∧ LimitLength (lit "exactly-ten") (-3) = some (lit "") :=
  ⟨by decide, LimitLength_nonpositive (lit "exactly-ten") (-3) (by decide)⟩

/-- C9: for every string `s`, `hash s` has exactly 8 bytes, each of them one of the
characters `0`-`9`, `a`-`f`, and read as a hexadecimal numeral it denotes the 32-bit hash
of `s`: it is that number padded on the left with zeros to eight digits. -/
theorem hash_eight_lowercase_hex (s : GoString) :
    (hash s).length = 8 ∧ (∀ c ∈ hash s, isLowerHex c = true) ∧
      hexValue (hash s) = fnv32a s ∧ fnv32a s < 16 ^ 8 :=
  ⟨hash_length s, fmt08x_isLowerHex (fnv32a s), fmt08x_value (fnv32a s), by
    have := fnv32a_lt s
    have h16 : (16 : Nat) ^ 8 = 2 ^ 32 := by norm_num
    omega⟩

/-- C10: `GetName` called on the non-empty base `abcdefgh`, the suffix `x` and the
positive `maxLength` 5 slices `base[0:-4]` and faults, where it is expected to return a
name of at most 5 bytes; the sibling `LimitLength` returns one at the same bound. -/
theorem GetName_faults_below_nine :
    lit "abcdefgh" ≠ [] ∧ (0 : Int) < 5 ∧
    GetName (lit "abcdefgh") (lit "x") 5 = none ∧
    min (len (lit "abcdefgh")) (wrapInt (5 - 9)) = -4 ∧
    LimitLength (lit "abcdefgh-x") 5 = some (lit "c23fc") := by
  decide

/-- C11: `GetPodName(base, suffix)` is `GetName(base, suffix, 253)`, and it returns a name
of at most 253 bytes.  (The joined name is a Go string, so its length is below `2 ^ 63`.) -/
theorem GetPodName_is_GetName_253 (base suffix : GoString)
    (hlen : len base + 1 + len suffix < 2 ^ 63) :
    GetPodName base suffix = GetName base suffix 253 ∧
      ∃ r, GetPodName base suffix = some r ∧ len r ≤ 253 :=
  ⟨rfl, getName_bounded base suffix 253 hlen (by norm_num)⟩

theorem GetPodName_is_GetName_253_witness :
    len (lit "deployment-5") + 1 + len (lit "deploy") < 2 ^ 63 ∧
    GetPodName (lit "deployment-5") (lit "deploy") = GetName (lit "deployment-5") (lit "deploy") 253 ∧
    ∃ r, GetPodName (lit "deployment-5") (lit "deploy") = some r ∧ len r ≤ 253 :=
  ⟨by decide, GetPodName_is_GetName_253 (lit "deployment-5") (lit "deploy") (by decide)⟩

/-- C12: `GetName`, `LimitLength` and `hash` depend on their arguments alone.  Run in any
two heaps (whatever earlier calls left behind), a call gives the same result; a call
repeated in the heap its first run left behind gives that result again; and the result
is the one of the state-free functions `GetName`, `LimitLength` and `hash`. -/
theorem namer_no_retained_state (σ1 σ2 : Heap) (base suffix name s : GoString)
    (maxLength : Int) :
    ((GetNameM base suffix maxLength σ1).1 = (GetNameM base suffix maxLength σ2).1 ∧
      (LimitLengthM name maxLength σ1).1 = (LimitLengthM name maxLength σ2).1 ∧
      (hashM s σ1).1 = (hashM s σ2).1) ∧
    ((GetNameM base suffix maxLength (GetNameM base suffix maxLength σ1).2).1 =
        (GetNameM base suffix maxLength σ1).1 ∧
      (LimitLengthM name maxLength (LimitLengthM name maxLength σ1).2).1 =
        (LimitLengthM name maxLength σ1).1 ∧
      (hashM s (hashM s σ1).2).1 = (hashM s σ1).1) ∧
    ((GetNameM base suffix maxLength σ1).1 = GetName base suffix maxLength ∧
      (LimitLengthM name maxLength σ1).1 = LimitLength name maxLength ∧
      (hashM s σ1).1 = hash s) := by
  refine ⟨⟨?_, ?_, ?_⟩, ⟨?_, ?_, ?_⟩, ⟨?_, ?_, ?_⟩⟩ <;>
    simp only [getNameM_fst, limitLengthM_fst, hashM_fst]

/-- C13: for every suffix and every base of at least 10 bytes, with
`maxLength = len(suffix) + 10` the base budget is 0 and `GetName` returns
`"-" ++ hash(base) ++ "-" ++ suffix`: the truncated base is empty and the name begins with
a dash. -/
theorem GetName_zero_budget (base suffix : GoString)
    (hlen : len base + 1 + len suffix < 2 ^ 63) (hbase : len base ≥ 10) :
    GetName base suffix (len suffix + 10) =
      some (lit "-" ++ hash base ++ lit "-" ++ suffix) := by
  have hs := len_nonneg suffix
  rw [getName_of_short_suffix base suffix (len suffix + 10) hlen (by omega) (by omega)]
  have hz : len suffix + 10 - 10 - len suffix = 0 := by omega
  rw [hz]
  simp [lit_dash]

theorem GetName_zero_budget_witness :
    len (lit "0123456789") + 1 + len (lit "deploy") < 2 ^ 63 ∧ len (lit "0123456789") ≥ 10 ∧
    GetName (lit "0123456789") (lit "deploy") 16 = some (lit "-f9808ff2-deploy") :=
  ⟨by decide, by decide,
    (GetName_zero_budget (lit "0123456789") (lit "deploy") (by decide) (by decide)).trans
      (by decide)⟩

/-- C14: when `1 ≤ maxLength < 8` and `len(name) > maxLength`, `LimitLength` does not fault
and returns exactly the first `maxLength` bytes of `hash(name)`, with no byte of `name`. -/
theorem LimitLength_digest_fragment (name : GoString) (maxLength : Int)
    (h1 : 1 ≤ maxLength) (h8 : maxLength < 8) (hlong : len name > maxLength) :
    LimitLength name maxLength = some ((hash name).take maxLength.toNat) :=
  limitLength_of_tiny name maxLength h1 h8 hlong

theorem LimitLength_digest_fragment_witness :
    (1 : Int) ≤ 5 ∧ (5 : Int) < 8 ∧ len (lit "abcdefgh-x") > 5 ∧
    LimitLength (lit "abcdefgh-x") 5 = some (lit "c23fc") :=
  ⟨by decide, by decide, by decide,
    (LimitLength_digest_fragment (lit "abcdefgh-x") 5 (by decide) (by decide) (by decide)).trans
      (by decide)⟩

/-- C15: when `1 ≤ maxLength < len(name)`, `LimitLength` returns a string of exactly
`maxLength` bytes.  (The name is a Go string, so its length is below `2 ^ 63`.) -/
theorem LimitLength_exact_length (name : GoString) (maxLength : Int)
    (hlen : len name < 2 ^ 63) (h1 : 1 ≤ maxLength) (hlong : maxLength < len name) :
    ∃ r, LimitLength name maxLength = some r ∧ len r = maxLength := by
  refine ⟨_, limitLength_of_long name maxLength hlen h1 hlong, ?_⟩
  have hc0 : 0 ≤ min (max 0 (maxLength - 8)) (len name) := by
    unfold min max
    split <;> split <;> omega
  have hc1 : min (max 0 (maxLength - 8)) (len name) ≤ len name := by
    unfold min max
    split <;> split <;> omega
  have hc2 : maxLength ≤ min (max 0 (maxLength - 8)) (len name) + 8 := by
    unfold min max
    split <;> split <;> omega
  have hin : maxLength ≤
      len (name.take (min (max 0 (maxLength - 8)) (len name)).toNat ++ hash name) := by
    rw [len_append, len_hash, length_take_toNat _ _ hc0 hc1]
    exact hc2
  unfold len at hin ⊢
  rw [List.length_take]
  omega

theorem LimitLength_exact_length_witness :
    len (lit "this-name-is-too-long-for-the-limit") < 2 ^ 63 ∧ (1 : Int) ≤ 10 ∧
    (10 : Int) < len (lit "this-name-is-too-long-for-the-limit") ∧
    ∃ r, LimitLength (lit "this-name-is-too-long-for-the-limit") 10 = some r ∧ len r = 10 :=
  ⟨by decide, by decide, by decide,
    LimitLength_exact_length (lit "this-name-is-too-long-for-the-limit") 10
      (by decide) (by decide) (by decide)⟩

/-- C16: for every byte string `s`, `hash s` is the rendering in exactly 8 lowercase
hexadecimal digits, zero-padded, of the 32-bit FNV-1a hash of `s` (from 2166136261, each
byte in order is xor-ed into the state, which is then multiplied by 16777619 modulo
`2 ^ 32`); `hash("")` is `811c9dc5` and `hash("a")` is `e40c292c`. -/
theorem hash_is_fnv1a_hex (s : GoString) :
    hash s = hexFixed 8 (fnv1aSpec s) ∧ fnv1aSpec s < 2 ^ 32 ∧
      hash (lit "") = lit "811c9dc5" ∧ hash (lit "a") = lit "e40c292c" := by
  have hlt := fnv32a_lt s
  have h16 : (16 : Nat) ^ 8 = 2 ^ 32 := by norm_num
  refine ⟨?_, ?_, by decide, by decide⟩
  · rw [fnv1aSpec_eq]
    exact fmt08x_eq_hexFixed _ (by omega)
  · rw [fnv1aSpec_eq]
    exact hlt

/-- C17: for a suffix and `maxLength` with `k = maxLength - 10 - len(suffix) ≥ 0` and two
bases that are both too long to fit, `GetName` gives the same name for both exactly when
their first `k` bytes agree and their digests are equal. -/
theorem GetName_collapse_iff (b1 b2 suffix : GoString) (maxLength : Int)
    (hlen1 : len b1 + 1 + len suffix < 2 ^ 63) (hlen2 : len b2 + 1 + len suffix < 2 ^ 63)
    (hk : maxLength - 10 - len suffix ≥ 0)
    (hlong1 : len b1 + 1 + len suffix > maxLength)
    (hlong2 : len b2 + 1 + len suffix > maxLength) :
    GetName b1 suffix maxLength = GetName b2 suffix maxLength ↔
      (b1.take (maxLength - 10 - len suffix).toNat = b2.take (maxLength - 10 - len suffix).toNat
        ∧ hash b1 = hash b2) := by
  rw [getName_of_short_suffix b1 suffix maxLength hlen1 (by omega) (by omega),
    getName_of_short_suffix b2 suffix maxLength hlen2 (by omega) (by omega)]
  have ht1 := length_take_toNat b1 (maxLength - 10 - len suffix) (by omega) (by omega)
  have ht2 := length_take_toNat b2 (maxLength - 10 - len suffix) (by omega) (by omega)
  have htl : (b1.take (maxLength - 10 - len suffix).toNat).length =
      (b2.take (maxLength - 10 - len suffix).toNat).length :=
    Int.ofNat.inj (ht1.trans ht2.symm)
  constructor
  · intro h
    have h1 := List.append_inj (Option.some.inj h) htl
    refine ⟨h1.1, ?_⟩
    have h2 := List.cons.inj h1.2
    exact List.append_inj_left h2.2 (by rw [hash_length, hash_length])
  · rintro ⟨h1, h2⟩
    rw [h1, h2]

theorem GetName_collapse_iff_witness :
    len (lit "a-very-long-deployment-name-that-exceeds") + 1 + len (lit "deploy") < 2 ^ 63 ∧
    len (lit "a-very-long-deployment-name-that-differs") + 1 + len (lit "deploy") < 2 ^ 63 ∧
    (30 : Int) - 10 - len (lit "deploy") ≥ 0 ∧
    len (lit "a-very-long-deployment-name-that-exceeds") + 1 + len (lit "deploy") > 30 ∧
    len (lit "a-very-long-deployment-name-that-differs") + 1 + len (lit "deploy") > 30 ∧
    (GetName (lit "a-very-long-deployment-name-that-exceeds") (lit "deploy") 30 =
        GetName (lit "a-very-long-deployment-name-that-differs") (lit "deploy") 30 ↔
      ((lit "a-very-long-deployment-name-that-exceeds").take
          ((30 : Int) - 10 - len (lit "deploy")).toNat =
        (lit "a-very-long-deployment-name-that-differs").take
          ((30 : Int) - 10 - len (lit "deploy")).toNat ∧
        hash (lit "a-very-long-deployment-name-that-exceeds") =
          hash (lit "a-very-long-deployment-name-that-differs"))) ∧
    GetName (lit "a-very-long-deployment-name-that-exceeds") (lit "deploy") 30 ≠
      GetName (lit "a-very-long-deployment-name-that-differs") (lit "deploy") 30 :=
  ⟨by decide, by decide, by decide, by decide, by decide,
    GetName_collapse_iff (lit "a-very-long-deployment-name-that-exceeds")
      (lit "a-very-long-deployment-name-that-differs") (lit "deploy") 30
      (by decide) (by decide) (by decide) (by decide) (by decide),
    by decide⟩

/-- C18: `GetName` faults exactly when the joined name is longer than `maxLength` and
`maxLength < 9`; on every other input both slice expressions are within bounds and a
string is returned.  (`maxLength` is a 64-bit `int`, and the two strings are of a size a
64-bit machine can hold: `len(base) + len(suffix) + 10` is below `2 ^ 63`.) -/
theorem GetName_faults_iff (base suffix : GoString) (maxLength : Int)
    (hmin : -2 ^ 63 ≤ maxLength) (hlen : len base + len suffix + 10 < 2 ^ 63) :
    (GetName base suffix maxLength = none ↔
        (len base + 1 + len suffix > maxLength ∧ maxLength < 9)) ∧
      (¬ (len base + 1 + len suffix > maxLength ∧ maxLength < 9) →
        ∃ r, GetName base suffix maxLength = some r) := by
  have hsome : ¬ (len base + 1 + len suffix > maxLength ∧ maxLength < 9) →
      ∃ r, GetName base suffix maxLength = some r := by
    intro hn
    by_cases hfit : len base + 1 + len suffix ≤ maxLength
    · exact ⟨_, getName_of_fits base suffix maxLength hfit⟩
    · obtain ⟨r, hr, _⟩ := getName_bounded base suffix maxLength (by omega) (by omega)
      exact ⟨r, hr⟩
  refine ⟨⟨fun hnone => ?_, fun h => getName_faults base suffix maxLength hmin hlen h.1 h.2⟩,
    hsome⟩
  by_contra hn
  obtain ⟨r, hr⟩ := hsome hn
  rw [hr] at hnone
  exact Option.noConfusion hnone

theorem GetName_faults_iff_witness :
    (-2 ^ 63 : Int) ≤ 5 ∧ len (lit "abcdefgh") + len (lit "x") + 10 < 2 ^ 63 ∧
    GetName (lit "abcdefgh") (lit "x") 5 = none ∧
    ∃ r, GetName (lit "abcdefgh") (lit "x") 9 = some r :=
  ⟨by decide, by decide,
    (GetName_faults_iff (lit "abcdefgh") (lit "x") 5 (by decide) (by decide)).1.2
      ⟨by decide, by decide⟩,
    (GetName_faults_iff (lit "abcdefgh") (lit "x") 9 (by decide) (by decide)).2
      (fun h => absurd h.2 (by decide))⟩

/-- C19: when `len(suffix) + 10 ≤ maxLength`, the name `GetName` returns ends with
`"-" ++ suffix`, whether or not the base is truncated; so the suffix is dropped only when
`len(suffix) > maxLength - 10`. -/
theorem GetName_keeps_suffix (base suffix : GoString) (maxLength : Int)
    (hlen : len base + 1 + len suffix < 2 ^ 63) (hfit : len suffix + 10 ≤ maxLength) :
    ∃ r, GetName base suffix maxLength = some r ∧ List.IsSuffix (lit "-" ++ suffix) r := by
  by_cases hname : len base + 1 + len suffix ≤ maxLength
  · refine ⟨_, getName_of_fits base suffix maxLength hname, base, ?_⟩
    simp [lit_dash]
  · refine ⟨_, getName_of_short_suffix base suffix maxLength hlen (by omega) (by omega),
      base.take (maxLength - 10 - len suffix).toNat ++ dash :: hash base, ?_⟩
    simp [lit_dash]

theorem GetName_keeps_suffix_witness :
    len (lit "a-very-long-deployment-name-that-exceeds") + 1 + len (lit "deploy") < 2 ^ 63 ∧
    len (lit "deploy") + 10 ≤ 30 ∧
    ∃ r, GetName (lit "a-very-long-deployment-name-that-exceeds") (lit "deploy") 30 = some r ∧
      List.IsSuffix (lit "-" ++ lit "deploy") r :=
  ⟨by decide, by decide,
    GetName_keeps_suffix (lit "a-very-long-deployment-name-that-exceeds") (lit "deploy") 30
      (by decide) (by decide)⟩

/-- C20: `LimitLength` is idempotent in its first argument: for every name and every
`maxLength` it returns a string `r`, and `LimitLength(r, maxLength)` is `r` again.  (The
name is a Go string, so its length is below `2 ^ 63`.) -/
theorem LimitLength_idempotent (name : GoString) (maxLength : Int)
    (hlen : len name < 2 ^ 63) :
    ∃ r, LimitLength name maxLength = some r ∧ LimitLength r maxLength = some r := by
  by_cases h0 : maxLength ≤ 0
  · exact ⟨[], limitLength_of_nonpos name maxLength h0, limitLength_of_nonpos [] maxLength h0⟩
  · obtain ⟨r, hr, hle⟩ := limitLength_bounded name maxLength hlen (by omega)
    exact ⟨r, hr, limitLength_of_fits r maxLength (by omega) hle⟩

theorem LimitLength_idempotent_witness :
    len (lit "this-name-is-too-long-for-the-limit") < 2 ^ 63 ∧
    ∃ r, LimitLength (lit "this-name-is-too-long-for-the-limit") 10 = some r ∧
      LimitLength r 10 = some r :=
  ⟨by decide, LimitLength_idempotent (lit "this-name-is-too-long-for-the-limit") 10 (by decide)⟩

end Namer
